import Mathlib

/-!
Shallow embedding of the sysctl-style configuration parser and schema
validator (src/parser/mod.rs and src/parser/schema.rs).

Strings from the Rust side are modelled as `List Char`; the `HashMap`
backing `SysctlConfig.settings` is modelled as an association list with
distinct keys where `insert` replaces an existing binding in place
(this preserves `get`, `len` and last-write-wins semantics; iteration
order questions are treated by quantifying over permutations).
-/

/-- Character strings of the Rust program, as lists of characters. -/
abbrev Str := List Char

/-- Model of Rust `char::is_whitespace` (the Unicode White_Space property). -/
def isRustWhitespace (c : Char) : Bool :=
  c = ' ' || c = '\t' || c = '\n' || c.toNat = 0x0B || c.toNat = 0x0C || c = '\r'
  || c.toNat = 0x85 || c.toNat = 0xA0 || c.toNat = 0x1680
  || (0x2000 ≤ c.toNat && c.toNat ≤ 0x200A)
  || c.toNat = 0x2028 || c.toNat = 0x2029 || c.toNat = 0x202F
  || c.toNat = 0x205F || c.toNat = 0x3000

/-- Drop leading whitespace, as in the left half of Rust `str::trim`. -/
def trimLeft (l : Str) : Str := l.dropWhile isRustWhitespace

/-- Drop trailing whitespace, as in the right half of Rust `str::trim`. -/
def trimRight (l : Str) : Str := ((l.reverse).dropWhile isRustWhitespace).reverse

/-- Model of Rust `str::trim`: remove whitespace from both ends. -/
def trim (l : Str) : Str := trimRight (trimLeft l)

/-- Model of Rust `line.splitn(2, '=')` collected into a `Vec`: at most two
parts, the split happening at the first `'='` only. -/
def splitn2Eq (l : Str) : List Str :=
  match l.dropWhile (fun c => !(c = '=')) with
  | [] => [l.takeWhile (fun c => !(c = '='))]
  | _ :: after => [l.takeWhile (fun c => !(c = '=')), after]

/-- Model of Rust `key.split('.')` collected into a `Vec`: splitting on every
dot, keeping empty segments, and producing `[""]` on the empty string. -/
def splitOnDot : Str → List Str
  | [] => [[]]
  | c :: rest =>
    if c = '.' then [] :: splitOnDot rest
    else
      match splitOnDot rest with
      | [] => [[c]]
      | s :: ss => (c :: s) :: ss

/-- `HashMap::insert` on the association-list model: replace the binding if
the key is present, append it otherwise. -/
def tableInsert (k v : Str) : List (Str × Str) → List (Str × Str)
  | [] => [(k, v)]
  | (k', v') :: rest =>
    if k = k' then (k, v) :: rest else (k', v') :: tableInsert k v rest

/-- `HashMap::get` on the association-list model. -/
def assocGet (k : Str) : List (Str × Str) → Option Str
  | [] => none
  | (k', v) :: rest => if k = k' then some v else assocGet k rest

/-- Insert a list of key/value entries in order (left to right). -/
def applyEntries (t : List (Str × Str)) (es : List (Str × Str)) : List (Str × Str) :=
  es.foldl (fun acc e => tableInsert e.1 e.2 acc) t

/-- The error type `SysctlError` of src/parser/mod.rs, restricted to the
variants the embedded fragment can construct (`Parse` carries the 1-indexed
line number and the diagnostic message). -/
inductive SysctlError where
  | Parse : (line : Nat) → (message : String) → SysctlError
deriving DecidableEq

/-- Diagnostic for a line without `'='`. -/
def invalidFormatMsg : String := "invalid format, expected 'key=value'"

/-- Diagnostic for a line whose trimmed key is empty. -/
def emptyKeyMsg : String := "empty key not allowed"

/-- `SysctlConfig::should_skip_line`: skip empty lines and `#` comments
(the argument is the already-trimmed line). -/
def should_skip_line (line : Str) : Bool :=
  line.isEmpty || line.head? = some '#'

/-- `SysctlConfig::parse_line` on the settings table: split on the first
`'='`, require exactly two parts, trim key and value, reject an empty key,
insert otherwise. -/
def parse_line (settings : List (Str × Str)) (line : Str) (line_number : Nat) :
    Except SysctlError (List (Str × Str)) :=
  match splitn2Eq line with
  | [p0, p1] =>
    let key := trim p0
    let value := trim p1
    if key = [] then .error (.Parse line_number emptyKeyMsg)
    else .ok (tableInsert key value settings)
  | _ => .error (.Parse line_number invalidFormatMsg)

/-- The loop body of `SysctlConfig::parse`: consume the lines in order,
keeping a 1-indexed line counter (`n` lines already consumed), trimming each
line, skipping blanks and comments, and stopping at the first failing line.
The returned table is the state of `self.settings` when the call returns
(the Rust method mutates `self` in place, so on error the table holds
whatever was inserted before the failure). -/
def parseFrom (settings : List (Str × Str)) (lines : List Str) (n : Nat) :
    Except SysctlError Unit × List (Str × Str) :=
  match lines with
  | [] => (.ok (), settings)
  | l :: rest =>
    let trimmed := trim l
    if should_skip_line trimmed then parseFrom settings rest (n + 1)
    else
      match parse_line settings trimmed (n + 1) with
      | .ok s' => parseFrom s' rest (n + 1)
      | .error e => (.error e, settings)

/-- The struct `SysctlConfig` of src/parser/mod.rs. -/
structure SysctlConfig where
  settings : List (Str × Str)
deriving DecidableEq

/-- `SysctlConfig::new`. -/
def SysctlConfig.new : SysctlConfig := ⟨[]⟩

/-- `SysctlConfig::parse`, with the input stream given as its list of lines
(Rust reads them through `BufReader::lines`); returns the `Result` together
with the final state of the mutated receiver. -/
def SysctlConfig.parse (c : SysctlConfig) (lines : List Str) :
    Except SysctlError Unit × SysctlConfig :=
  let r := parseFrom c.settings lines 0
  (r.1, ⟨r.2⟩)

/-- `SysctlConfig::get`. -/
def SysctlConfig.get (c : SysctlConfig) (key : Str) : Option Str :=
  assocGet key c.settings

/-- `SysctlConfig::set`: a direct `HashMap::insert`, no trimming, no checks. -/
def SysctlConfig.set (c : SysctlConfig) (key value : Str) : SysctlConfig :=
  ⟨tableInsert key value c.settings⟩

/-- `SysctlConfig::len`. -/
def SysctlConfig.len (c : SysctlConfig) : Nat := c.settings.length

/-- `SysctlConfig::is_empty`. -/
def SysctlConfig.is_empty (c : SysctlConfig) : Bool := c.settings.isEmpty

/-- Per-line classification used to state properties of the parser: a line
is skipped, yields a key/value entry, or fails with a message. This mirrors
the per-line behaviour of `parse` (trim, then `should_skip_line`, then
`parse_line`); the bridge to the stateful `parseFrom` is proved below. -/
inductive LineAction where
  | skip : LineAction
  | entry : Str → Str → LineAction
  | fail : String → LineAction
deriving DecidableEq

/-- Classify one raw input line. -/
def lineClass (l : Str) : LineAction :=
  let t := trim l
  if should_skip_line t then .skip
  else
    match splitn2Eq t with
    | [p0, p1] =>
      if trim p0 = [] then .fail emptyKeyMsg
      else .entry (trim p0) (trim p1)
    | _ => .fail invalidFormatMsg

/-- The entry produced by a line, when it produces one. -/
def lineEntry (l : Str) : Option (Str × Str) :=
  match lineClass l with
  | .entry k v => some (k, v)
  | _ => none

/-- All entries produced by a list of lines, in order. -/
def entriesOf (lines : List Str) : List (Str × Str) :=
  lines.filterMap lineEntry

/-- A line is well formed when it does not fail. -/
def lineOk (l : Str) : Prop := ∀ m, lineClass l ≠ .fail m

instance (l : Str) : Decidable (lineOk l) := by
  unfold lineOk
  cases lineClass l with
  | skip => exact isTrue (by intro m h; cases h)
  | entry k v => exact isTrue (by intro m h; cases h)
  | fail m => exact isFalse (by intro h; exact h m rfl)

/-- The last value written to `k` by an entry list, if any. -/
def findLastVal (k : Str) : List (Str × Str) → Option Str
  | [] => none
  | (k', v) :: rest =>
    match findLastVal k rest with
    | some w => some w
    | none => if k = k' then some v else none

/-- The table invariant claimed by the spec: every key is non-empty, and
keys and values carry no surrounding whitespace. -/
def tableInvariant (t : List (Str × Str)) : Prop :=
  ∀ kv ∈ t, kv.1 ≠ [] ∧ trim kv.1 = kv.1 ∧ trim kv.2 = kv.2

instance (t : List (Str × Str)) : Decidable (tableInvariant t) := by
  unfold tableInvariant; infer_instance

/-!
## JSON tree model

`serde_json::Value` as produced by `to_json`/`set_nested_value`. The only
constructors this program can create are objects (`json!({})`), strings
(`json!(value)` for a `&str`) and the transient `Null` that string-indexing
an object without the key yields; objects are `serde_json::Map`, a
`BTreeMap` ordered by the byte-wise (here: code-point-wise) key order, which
this model keeps as a key-sorted association list.
-/

/-- The fragment of `serde_json::Value` reachable in this program. -/
inductive Json where
  | null : Json
  | str : Str → Json
  | obj : List (Str × Json) → Json

/-- Strict key order of the object map: lexicographic on code points, the
order a `BTreeMap<String, _>` maintains on UTF-8 strings. -/
def keyLt : Str → Str → Bool
  | [], [] => false
  | [], _ :: _ => true
  | _ :: _, [] => false
  | a :: as, b :: bs =>
    if a < b then true
    else if b < a then false
    else keyLt as bs

/-- Ordered-map insertion into the object entry list (replace on equal key). -/
def objInsert (k : Str) (v : Json) : List (Str × Json) → List (Str × Json)
  | [] => [(k, v)]
  | (k', v') :: rest =>
    if keyLt k k' then (k, v) :: (k', v') :: rest
    else if k = k' then (k, v) :: rest
    else (k', v') :: objInsert k v rest

/-- Ordered-map lookup (the read `current[k]` on an object). -/
def objGet (k : Str) : List (Str × Json) → Option Json
  | [] => none
  | (k', v) :: rest => if k = k' then some v else objGet k rest

/-- The child object entered by the loop of `set_nested_value`: the existing
object at `k` when there is one, a fresh empty object otherwise (a missing
key reads as `Null`, and any non-object value is replaced by `json!({})`). -/
def childOf (k : Str) (es : List (Str × Json)) : List (Str × Json) :=
  match objGet k es with
  | some (Json.obj ces) => ces
  | _ => []

/-- The walk of `set_nested_value` over a non-empty segment path: descend
through every segment but the last, creating or replacing interior objects,
then set the last segment to the string value. -/
def setNested : List Str → Str → List (Str × Json) → List (Str × Json)
  | [], _, es => es
  | [k], v, es => objInsert k (Json.str v) es
  | k :: s :: rest, v, es =>
    objInsert k (Json.obj (setNested (s :: rest) v (childOf k es))) es

/-- `SysctlConfig::set_nested_value` on a root object: split the key on
`'.'` and walk the segments. The `none` result models the panic of the
slice `&keys[..keys.len() - 1]` when the segment list is empty, which the
totality theorem shows unreachable (`split` always yields a segment). -/
def set_nested_value (es : List (Str × Json)) (key value : Str) :
    Option (List (Str × Json)) :=
  match splitOnDot key with
  | [] => none
  | k :: rest => some (setNested (k :: rest) value es)

/-- `SysctlConfig::to_json`: start from `json!({})`, apply
`set_nested_value` for every setting, and return `Ok` of the result. The
outer `Option` models the panic possibility threaded out of
`set_nested_value`; the `Except` is the function's `Result` type, whose
error branch the body never constructs. -/
def SysctlConfig.to_json (c : SysctlConfig) : Option (Except SysctlError Json) :=
  match c.settings.foldlM (fun es e => set_nested_value es e.1 e.2) [] with
  | none => none
  | some es => some (.ok (Json.obj es))

/-- The pure tree builder: the result of applying `set_nested_value` for
each entry in the given order, starting from the empty root object. -/
def buildTree (es : List (Str × Str)) : List (Str × Json) :=
  es.foldl (fun acc e => setNested (splitOnDot e.1) e.2 acc) []

/-- `p` is an initial run of `q` (path prefix, possibly equal). -/
def startsPath : List Str → List Str → Bool
  | [], _ => true
  | _ :: _, [] => false
  | a :: as, b :: bs => a = b && startsPath as bs

/-- Two table entries have non-colliding dotted paths: neither key's
segment path is an initial run of the other's. -/
def pathsDisjoint (e₁ e₂ : Str × Str) : Prop :=
  startsPath (splitOnDot e₁.1) (splitOnDot e₂.1) = false ∧
  startsPath (splitOnDot e₂.1) (splitOnDot e₁.1) = false

instance (e₁ e₂ : Str × Str) : Decidable (pathsDisjoint e₁ e₂) := by
  unfold pathsDisjoint; infer_instance

/-- Every node of the tree is an object or a string leaf (never `Null`,
never any other `Value` constructor). -/
def noNull : Json → Prop
  | .null => False
  | .str _ => True
  | .obj es => ∀ e ∈ es, noNull e.2
termination_by j => sizeOf j
decreasing_by
  have h1 : sizeOf e < sizeOf es := List.sizeOf_lt_of_mem (by assumption)
  have h2 : sizeOf e.2 < sizeOf e := by
    obtain ⟨a, b⟩ := e; simp
  simp only [Json.obj.sizeOf_spec]
  omega


/-!
## Schema model (src/parser/schema.rs)
-/

/-- The enum `SchemaType`. -/
inductive SchemaType where
  | string : SchemaType
  | bool : SchemaType
  | int : SchemaType
  | float : SchemaType
  | optional : SchemaType → SchemaType
deriving DecidableEq

/-- The struct `SchemaField`. -/
structure SchemaField where
  field_type : SchemaType
  required : Bool
  description : Option String
deriving DecidableEq

/-- The error type `SchemaError`, without the `Io` variant (file-system
errors are outside the embedded fragment). `Validation` is the spec's
TypeMismatch record; `MissingKey` is the spec's MissingRequiredKey. -/
inductive SchemaError where
  | Yaml : (message : String) → SchemaError
  | Validation : (key : Str) → (message : String) → SchemaError
  | MissingKey : (key : Str) → SchemaError
  | UnknownType : (type_name : String) → SchemaError
deriving DecidableEq

/-- The struct `Schema`; its `HashMap<String, SchemaField>` is modelled as
an association list of fields. -/
structure Schema where
  schema : List (Str × SchemaField)

/-- The numeric value of a list of decimal digit characters. -/
def natOfDigits : List Char → Nat → Nat
  | [], acc => acc
  | c :: rest, acc => natOfDigits rest (acc * 10 + (c.toNat - '0'.toNat))

/-- Model of Rust `value.parse::<i64>()`: an optional single leading `'+'`
or `'-'`, then one or more ASCII digits and nothing else, with the result
required to fit in the signed 64-bit range. -/
def parseI64 (l : Str) : Option Int :=
  let signDigits : Bool × List Char :=
    match l with
    | '+' :: rest => (false, rest)
    | '-' :: rest => (true, rest)
    | _ => (false, l)
  let neg := signDigits.1
  let digits := signDigits.2
  if digits.isEmpty || !(digits.all Char.isDigit) then none
  else
    let n := natOfDigits digits 0
    if neg then
      if n ≤ 2 ^ 63 then some (-(n : Int)) else none
    else
      if n ≤ 2 ^ 63 - 1 then some (n : Int) else none

/-- One or more ASCII digits. -/
def digits1 (l : List Char) : Bool := !l.isEmpty && l.all Char.isDigit

/-- Model of the acceptance set of Rust `value.parse::<f64>()`, which is
purely syntactic (overflow saturates to infinity and never fails): an
optional sign, then `inf`, `infinity`, `nan` case-insensitively, or a
mantissa (`d+`, `d+.d*` or `.d+`) with an optional exponent. -/
def f64Accepts (l : Str) : Bool :=
  let body :=
    match l with
    | '+' :: rest => rest
    | '-' :: rest => rest
    | _ => l
  let lowerBody := body.map Char.toLower
  if lowerBody = "inf".toList || lowerBody = "infinity".toList
     || lowerBody = "nan".toList then true
  else
    let mantissa := body.takeWhile (fun c => !(c = 'e' || c = 'E'))
    let expPart := body.dropWhile (fun c => !(c = 'e' || c = 'E'))
    let mantOk :=
      let ipart := mantissa.takeWhile (fun c => !(c = '.'))
      match mantissa.dropWhile (fun c => !(c = '.')) with
      | [] => digits1 ipart
      | _ :: fpart => (digits1 ipart && fpart.all Char.isDigit)
                      || (ipart.isEmpty && digits1 fpart)
    let expOk :=
      match expPart with
      | [] => true
      | _ :: e =>
        match e with
        | '+' :: d => digits1 d
        | '-' :: d => digits1 d
        | d => digits1 d
    mantOk && expOk

/-- The eight accepted boolean spellings, already lower-case. -/
def boolLits : List Str :=
  ["true".toList, "false".toList, "1".toList, "0".toList,
   "on".toList, "off".toList, "yes".toList, "no".toList]

/-- `Schema::validate_value`: type-check one string value against a
`SchemaType` (the `Optional` wrapper delegates to its inner type). -/
def Schema.validate_value (key value : Str) :
    SchemaType → Except SchemaError Unit
  | .string => .ok ()
  | .bool =>
    let lower_value := value.map Char.toLower
    if lower_value ∈ boolLits then .ok ()
    else .error (.Validation key
      ("expected boolean value, got '" ++ String.mk value ++ "'"))
  | .int =>
    if (parseI64 value).isSome then .ok ()
    else .error (.Validation key
      ("expected integer value, got '" ++ String.mk value ++ "'"))
  | .float =>
    if f64Accepts value then .ok ()
    else .error (.Validation key
      ("expected float value, got '" ++ String.mk value ++ "'"))
  | .optional inner_type => Schema.validate_value key value inner_type

/-- The accumulator loop of `Schema::validate`: for each declared field,
push one error when the key is present with a mismatching value, or absent
while required (`Vec::push` appends at the end). -/
def collectErrors (config : List (Str × Str)) :
    List (Str × SchemaField) → List SchemaError → List SchemaError
  | [], errors => errors
  | (key, field) :: rest, errors =>
    let errors' :=
      match assocGet key config with
      | some value =>
        match Schema.validate_value key value field.field_type with
        | .ok _ => errors
        | .error e => errors ++ [e]
      | none =>
        if field.required then errors ++ [SchemaError.MissingKey key]
        else errors
    collectErrors config rest errors'

/-- `Schema::validate`: run the accumulator over every declared field and
succeed exactly when no error was collected. -/
def Schema.validate (s : Schema) (config : List (Str × Str)) :
    Except (List SchemaError) Unit :=
  let errors := collectErrors config s.schema []
  if errors.isEmpty then .ok () else .error errors

/-- The per-field outcome `Schema::validate` records: `none` when the field
passes, `some e` for the single error it contributes. -/
def fieldError (config : List (Str × Str)) (kf : Str × SchemaField) :
    Option SchemaError :=
  match assocGet kf.1 config with
  | some value =>
    match Schema.validate_value kf.1 value kf.2.field_type with
    | .ok _ => none
    | .error e => some e
  | none => if kf.2.required then some (SchemaError.MissingKey kf.1) else none

/-!
## Schema document loading

`Schema::from_file` reads a YAML document and deserializes it through the
serde derive on `Schema`/`SchemaField`/`SchemaType`; any deserialization
failure is wrapped as `SchemaError::Yaml` by the generated `From` impl.
The document is modelled after the YAML value has been read: a list of
field declarations whose type position holds either a scalar tag or a
single-key mapping (the externally tagged form of `Optional`).
-/

/-- The type position of a field declaration in the document. -/
inductive TypeTag where
  | atom : String → TypeTag
  | tagged : String → TypeTag → TypeTag
deriving DecidableEq

/-- A field declaration as it appears in the document; a missing
`required` defaults to `false`, a missing `description` to `None`
(the serde `#[serde(default)]` attributes). -/
structure SchemaFieldDoc where
  type_tag : TypeTag
  required : Option Bool
  description : Option (Option String)
deriving DecidableEq

/-- The message of serde's unknown-variant error; what matters for the
claims is that it names the offending tag. -/
def unknownVariantMsg (tag : String) : String :=
  "unknown variant " ++ tag ++
  ", expected one of string, bool, int, float, optional"

/-- The serde-derived deserializer for `SchemaType`
(`#[serde(rename_all = "lowercase")]`, externally tagged): the four
lower-case scalar tags and the single-key `optional` mapping succeed,
anything else is a deserialization failure surfaced as `SchemaError::Yaml`.
-/
def deserializeType : TypeTag → Except SchemaError SchemaType
  | .atom t =>
    if t = "string" then .ok .string
    else if t = "bool" then .ok .bool
    else if t = "int" then .ok .int
    else if t = "float" then .ok .float
    else .error (.Yaml (unknownVariantMsg t))
  | .tagged t inner =>
    if t = "optional" then
      match deserializeType inner with
      | .ok ty => .ok (.optional ty)
      | .error e => .error e
    else .error (.Yaml (unknownVariantMsg t))

/-- Deserialize one field declaration, applying the serde defaults. -/
def deserializeField (d : SchemaFieldDoc) : Except SchemaError SchemaField :=
  match deserializeType d.type_tag with
  | .ok ty => .ok ⟨ty, d.required.getD false, d.description.getD none⟩
  | .error e => .error e

/-- `Schema::from_file` after the file contents have been read and parsed
as YAML: deserialize every field declaration, stopping at the first
failure (serde aborts on the first error). -/
def schemaFromDoc : List (Str × SchemaFieldDoc) → Except SchemaError Schema
  | [] => .ok ⟨[]⟩
  | (name, d) :: rest =>
    match deserializeField d with
    | .error e => .error e
    | .ok f =>
      match schemaFromDoc rest with
      | .error e => .error e
      | .ok s => .ok ⟨(name, f) :: s.schema⟩

/-- Recognizer for the `UnknownType` variant. -/
def isUnknownType : SchemaError → Bool
  | .UnknownType _ => true
  | _ => false


/-- The node written at the head segment of a path. -/
def nestNode (a : Str) (as : List Str) (v : Str) (es : List (Str × Json)) : Json :=
  match as with
  | [] => Json.str v
  | s :: rest => Json.obj (setNested (s :: rest) v (childOf a es))

/-- The key column of a settings table. -/
def tableKeys (t : List (Str × Str)) : List Str := t.map Prod.fst

/-- The spec's two-required-keys example schema. -/
def twoReqSchema : Schema :=
  ⟨[("k1".toList, ⟨.int, true, none⟩), ("k2".toList, ⟨.bool, true, none⟩)]⟩

/-- The spec's example key `net.ipv4.forward`. -/
def fwdKey : Str := "net.ipv4.forward".toList

/-- The spec's example schema `{net.ipv4.forward: {type: bool, required: true}}`. -/
def fwdBoolSchema : Schema := ⟨[(fwdKey, ⟨.bool, true, none⟩)]⟩

/-!
## Lemmas about trimming
-/

theorem dropWhile_head_false {p : Char → Bool} :
    ∀ {l : Str} {c : Char}, (List.dropWhile p l).head? = some c → p c = false := by
  intro l
  induction l with
  | nil => intro c h; simp [List.dropWhile] at h
  | cons a rest ih =>
    intro c h
    by_cases hp : p a = true
    · rw [List.dropWhile_cons_of_pos hp] at h; exact ih h
    · rw [List.dropWhile_cons_of_neg hp] at h
      simp at h
      subst h
      simpa using hp

theorem dropWhile_eq_self_of_head {p : Char → Bool} {l : Str}
    (h : ∀ c, l.head? = some c → p c = false) : List.dropWhile p l = l := by
  cases l with
  | nil => rfl
  | cons a rest =>
    have : p a = false := h a rfl
    rw [List.dropWhile_cons_of_neg (by simp [this])]

theorem dropWhile_dropWhile (p : Char → Bool) (l : Str) :
    List.dropWhile p (List.dropWhile p l) = List.dropWhile p l :=
  dropWhile_eq_self_of_head (fun _ hc => dropWhile_head_false hc)

theorem trimLeft_idem (l : Str) : trimLeft (trimLeft l) = trimLeft l :=
  dropWhile_dropWhile _ l

theorem trimRight_idem (l : Str) : trimRight (trimRight l) = trimRight l := by
  unfold trimRight
  rw [List.reverse_reverse, dropWhile_dropWhile]

theorem trimRight_is_initial (l : Str) : ∃ t, l = trimRight l ++ t := by
  unfold trimRight
  obtain ⟨t, ht⟩ : ∃ t, t ++ List.dropWhile isRustWhitespace l.reverse = l.reverse :=
    ⟨List.takeWhile isRustWhitespace l.reverse, List.takeWhile_append_dropWhile _ _⟩
  refine ⟨t.reverse, ?_⟩
  calc l = l.reverse.reverse := (List.reverse_reverse l).symm
    _ = (t ++ List.dropWhile isRustWhitespace l.reverse).reverse := by rw [ht]
    _ = (List.dropWhile isRustWhitespace l.reverse).reverse ++ t.reverse := by
        rw [List.reverse_append]

theorem head_of_append_ne_nil {l t : Str} (h : l ≠ []) :
    (l ++ t).head? = l.head? := by
  cases l with
  | nil => exact absurd rfl h
  | cons a rest => rfl

theorem trimLeft_trimRight {l : Str} (h : trimLeft l = l) :
    trimLeft (trimRight l) = trimRight l := by
  by_cases hnil : trimRight l = []
  · rw [hnil]; rfl
  · apply dropWhile_eq_self_of_head
    intro c hc
    obtain ⟨t, ht⟩ := trimRight_is_initial l
    have hl : l.head? = some c := by
      rw [ht, head_of_append_ne_nil hnil]; exact hc
    apply dropWhile_head_false (p := isRustWhitespace) (l := l)
    rw [show List.dropWhile isRustWhitespace l = l from h]
    exact hl

theorem trim_idem (l : Str) : trim (trim l) = trim l := by
  unfold trim
  rw [trimLeft_trimRight (trimLeft_idem l), trimRight_idem]


/-!
## Lemmas about the first-equals split
-/

theorem splitn2Eq_of_no_eq {l : Str} (h : '=' ∉ l) : splitn2Eq l = [l] := by
  unfold splitn2Eq
  have hd : List.dropWhile (fun c => !(c = '=')) l = [] :=
    List.dropWhile_eq_nil_iff.mpr (by
      intro x hx
      simp only [Bool.not_eq_true']
      by_contra hne
      simp only [Bool.not_eq_false, decide_eq_true_eq] at hne
      exact h (hne ▸ hx))
  have ht : List.takeWhile (fun c => !(c = '=')) l = l :=
    List.takeWhile_eq_self_iff.mpr (by
      intro x hx
      by_contra hne
      simp only [Bool.not_eq_true, Bool.not_eq_true', decide_eq_false_iff_not,
        Decidable.not_not] at hne
      exact h (hne ▸ hx))
  rw [hd, ht]

theorem takeWhile_eqsplit (a b : Str) (h : '=' ∉ a) :
    (a ++ '=' :: b).takeWhile (fun c => !(c = '=')) = a := by
  induction a with
  | nil => simp [List.takeWhile]
  | cons x xs ih =>
    have hx : ¬ x = '=' := fun hh => h (by simp [hh])
    simp only [List.cons_append, List.takeWhile_cons]
    simp only [hx, decide_False, Bool.not_false, if_true]
    rw [ih (fun hm => h (List.mem_cons_of_mem _ hm))]

theorem dropWhile_eqsplit (a b : Str) (h : '=' ∉ a) :
    (a ++ '=' :: b).dropWhile (fun c => !(c = '=')) = '=' :: b := by
  induction a with
  | nil => simp [List.dropWhile]
  | cons x xs ih =>
    have hx : ¬ x = '=' := fun hh => h (by simp [hh])
    simp only [List.cons_append, List.dropWhile_cons]
    simp only [hx, decide_False, Bool.not_false, if_true]
    exact ih (fun hm => h (List.mem_cons_of_mem _ hm))

theorem splitn2Eq_of_decomp {a b : Str} (h : '=' ∉ a) :
    splitn2Eq (a ++ '=' :: b) = [a, b] := by
  unfold splitn2Eq
  rw [dropWhile_eqsplit a b h, takeWhile_eqsplit a b h]

theorem splitn2Eq_cases (l : Str) :
    ('=' ∉ l ∧ splitn2Eq l = [l]) ∨
    ∃ a b, l = a ++ '=' :: b ∧ '=' ∉ a ∧ splitn2Eq l = [a, b] := by
  by_cases hm : '=' ∈ l
  · right
    set p : Char → Bool := fun c => !(c = '=') with hp
    have hd : l.dropWhile p ≠ [] := by
      intro hnil
      have := List.dropWhile_eq_nil_iff.mp hnil '=' hm
      simp [hp] at this
    obtain ⟨c, after, hafter⟩ : ∃ c after, l.dropWhile p = c :: after := by
      cases hcase : l.dropWhile p with
      | nil => exact absurd hcase hd
      | cons c after => exact ⟨c, after, rfl⟩
    have hc : c = '=' := by
      have := dropWhile_head_false (p := p) (l := l) (c := c) (by rw [hafter]; rfl)
      simpa [hp] using this
    refine ⟨l.takeWhile p, after, ?_, ?_, ?_⟩
    · conv_lhs => rw [← List.takeWhile_append_dropWhile p l]
      rw [hafter, hc]
    · intro hmem
      have := List.mem_takeWhile_imp hmem
      simp [hp] at this
    · unfold splitn2Eq
      rw [hafter, hc]
  · exact Or.inl ⟨hm, splitn2Eq_of_no_eq hm⟩


/-!
## Lemmas about the ordered object map
-/

theorem keyLt_irrefl : ∀ k : Str, keyLt k k = false := by
  intro k
  induction k with
  | nil => rfl
  | cons a as ih => simp [keyLt, lt_irrefl, ih]

theorem keyLt_asymm : ∀ a b : Str, keyLt a b = true → keyLt b a = false := by
  intro a
  induction a with
  | nil => intro b h; cases b <;> simp [keyLt] at h ⊢
  | cons x xs ih =>
    intro b h
    cases b with
    | nil => simp [keyLt] at h
    | cons y ys =>
      simp only [keyLt] at h ⊢
      by_cases hxy : x < y
      · have : ¬ y < x := asymm hxy
        simp [this, hxy]
      · by_cases hyx : y < x
        · simp [hxy, hyx] at h
        · simp only [hxy, hyx, if_false] at h ⊢
          exact ih ys h

theorem keyLt_conn : ∀ a b : Str, keyLt a b = false → keyLt b a = false → a = b := by
  intro a
  induction a with
  | nil => intro b h _; cases b with
    | nil => rfl
    | cons y ys => simp [keyLt] at h
  | cons x xs ih =>
    intro b h h'
    cases b with
    | nil => simp [keyLt] at h'
    | cons y ys =>
      simp only [keyLt] at h h'
      by_cases hxy : x < y
      · simp [hxy] at h
      · by_cases hyx : y < x
        · simp [hyx, asymm hyx] at h'
        · have hx : x = y := le_antisymm (not_lt.mp hyx) (not_lt.mp hxy)
          simp only [hxy, hyx, if_false] at h h'
          rw [hx, ih ys h h']

theorem keyLt_trans : ∀ a b c : Str, keyLt a b = true → keyLt b c = true →
    keyLt a c = true := by
  intro a
  induction a with
  | nil =>
    intro b c h h'
    cases b with
    | nil => simp [keyLt] at h
    | cons y ys => cases c with
      | nil => simp [keyLt] at h'
      | cons z zs => rfl
  | cons x xs ih =>
    intro b c h h'
    cases b with
    | nil => simp [keyLt] at h
    | cons y ys =>
      cases c with
      | nil => simp [keyLt] at h'
      | cons z zs =>
        simp only [keyLt] at h h' ⊢
        by_cases hxy : x < y
        · by_cases hyz : y < z
          · simp [lt_trans hxy hyz]
          · by_cases hzy : z < y
            · simp [hyz, hzy] at h'
            · have : y = z := le_antisymm (not_lt.mp hzy) (not_lt.mp hyz)
              simp [this ▸ hxy]
        · by_cases hyx : y < x
          · simp [hxy, hyx] at h
          · have hx : x = y := le_antisymm (not_lt.mp hyx) (not_lt.mp hxy)
            subst hx
            by_cases hxz : x < z
            · simp [hxz]
            · by_cases hzx : z < x
              · simp [hxz, hzx] at h'
              · simp only [hxz, hzx, if_false] at h' ⊢
                simp only [hxy, lt_irrefl, if_false] at h
                exact ih ys zs h h'

theorem objGet_insert_self (k : Str) (v : Json) :
    ∀ es, objGet k (objInsert k v es) = some v := by
  intro es
  induction es with
  | nil => simp [objInsert, objGet]
  | cons e rest ih =>
    obtain ⟨k', v'⟩ := e
    simp only [objInsert]
    by_cases h1 : keyLt k k' = true
    · simp [h1, objGet]
    · by_cases h2 : k = k'
      · simp [h1, h2, objGet, keyLt_irrefl]
      · simp only [h1, h2, if_false]
        simp [objGet, h2, ih]

theorem objGet_insert_ne {k k' : Str} (h : ¬ k = k') (v : Json) :
    ∀ es, objGet k (objInsert k' v es) = objGet k es := by
  intro es
  induction es with
  | nil => simp [objInsert, objGet, h]
  | cons e rest ih =>
    obtain ⟨k'', v''⟩ := e
    simp only [objInsert]
    by_cases h1 : keyLt k' k'' = true
    · simp [h1, objGet, h]
    · by_cases h2 : k' = k''
      · subst h2
        simp [h1, objGet, h]
      · simp only [h1, h2, if_false]
        by_cases h3 : k = k''
        · simp [objGet, h3]
        · simp [objGet, h3, ih]

theorem objInsert_insert_self (k : Str) (v v' : Json) :
    ∀ es, objInsert k v (objInsert k v' es) = objInsert k v es := by
  intro es
  induction es with
  | nil => simp [objInsert, keyLt_irrefl]
  | cons e rest ih =>
    obtain ⟨k', w⟩ := e
    simp only [objInsert]
    by_cases h1 : keyLt k k' = true
    · simp [h1, objInsert, keyLt_irrefl]
    · by_cases h2 : k = k'
      · simp [h1, h2, objInsert, keyLt_irrefl]
      · simp only [h1, h2, if_false]
        simp only [objInsert, h1, h2, if_false]
        rw [ih]
        simp

theorem objInsert_comm_lt {k k' : Str} (hlt : keyLt k k' = true) (v v' : Json) :
    ∀ es, objInsert k v (objInsert k' v' es) = objInsert k' v' (objInsert k v es) := by
  have hne : ¬ k = k' := by
    intro h; subst h; rw [keyLt_irrefl] at hlt; cases hlt
  have hgt : keyLt k' k = false := keyLt_asymm _ _ hlt
  have hne' : ¬ k' = k := fun h => hne h.symm
  intro es
  induction es with
  | nil =>
    simp only [objInsert, hlt, if_true]
    simp [objInsert, hgt, hne']
  | cons e rest ih =>
    obtain ⟨a, w⟩ := e
    simp only [objInsert]
    by_cases hA : keyLt k' a = true
    · -- inner insert goes to the front
      have hka : keyLt k a = true := keyLt_trans _ _ _ hlt hA
      simp only [hA, if_true, objInsert, hlt, if_true, hka, hgt, hne']
      simp [hgt, hne', objInsert, hA]
    · by_cases hB : k' = a
      · subst hB
        have hka : keyLt k k' = true := hlt
        simp only [hA, if_false, if_true, objInsert, hlt, hka, hgt, hne']
        simp [hgt, hne', objInsert, hA]
      · simp only [hA, hB, if_false]
        by_cases hC : keyLt k a = true
        · simp only [objInsert, hC, if_true, hlt]
          simp [objInsert, hgt, hne', hA, hB, hC]
        · by_cases hD : k = a
          · subst hD
            simp only [objInsert, hC, if_false, if_true]
            simp [objInsert, hgt, hne', hA, hC]
          · simp only [objInsert, hC, hD, if_false]
            rw [ih]
            simp [objInsert, hA, hB]

theorem objInsert_comm {k k' : Str} (hne : ¬ k = k') (v v' : Json) (es : List (Str × Json)) :
    objInsert k v (objInsert k' v' es) = objInsert k' v' (objInsert k v es) := by
  by_cases hlt : keyLt k k' = true
  · exact objInsert_comm_lt hlt v v' es
  · have hgt : keyLt k' k = true := by
      by_contra hgt
      exact hne (keyLt_conn _ _ (Bool.not_eq_true _ ▸ hlt) (Bool.not_eq_true _ ▸ hgt))
    exact (objInsert_comm_lt hgt v' v es).symm


/-!
## Commutation of nested writes on disjoint paths
-/

theorem setNested_cons (a : Str) (as : List Str) (v : Str) (es : List (Str × Json)) :
    setNested (a :: as) v es = objInsert a (nestNode a as v es) es := by
  cases as <;> rfl

theorem childOf_insert_ne {a b : Str} (h : ¬ a = b) (w : Json) (es : List (Str × Json)) :
    childOf a (objInsert b w es) = childOf a es := by
  unfold childOf
  rw [objGet_insert_ne h w es]

theorem nestNode_insert_ne {a b : Str} (h : ¬ a = b) (as : List Str) (v : Str)
    (w : Json) (es : List (Str × Json)) :
    nestNode a as v (objInsert b w es) = nestNode a as v es := by
  cases as with
  | nil => rfl
  | cons s rest => simp [nestNode, childOf_insert_ne h]

theorem startsPath_nil (q : List Str) : startsPath [] q = true := rfl

theorem setNested_comm :
    ∀ (p₁ p₂ : List Str) (v₁ v₂ : Str) (es : List (Str × Json)),
    startsPath p₁ p₂ = false → startsPath p₂ p₁ = false →
    setNested p₂ v₂ (setNested p₁ v₁ es) = setNested p₁ v₁ (setNested p₂ v₂ es) := by
  intro p₁
  induction p₁ with
  | nil => intro p₂ v₁ v₂ es h₁ _; rw [startsPath_nil] at h₁; cases h₁
  | cons a as ih =>
    intro p₂ v₁ v₂ es h₁ h₂
    cases p₂ with
    | nil => rw [startsPath_nil] at h₂; cases h₂
    | cons b bs =>
      by_cases hab : a = b
      · -- same head segment: both descend into the child of `a`
        subst hab
        have htails₁ : startsPath as bs = false := by
          simpa [startsPath] using h₁
        have htails₂ : startsPath bs as = false := by
          simpa [startsPath] using h₂
        have has : as ≠ [] := by
          intro h; rw [h, startsPath_nil] at htails₁; cases htails₁
        have hbs : bs ≠ [] := by
          intro h; rw [h, startsPath_nil] at htails₂; cases htails₂
        obtain ⟨s₁, r₁, rfl⟩ : ∃ s r, as = s :: r := by
          cases as with
          | nil => exact absurd rfl has
          | cons s r => exact ⟨s, r, rfl⟩
        obtain ⟨s₂, r₂, rfl⟩ : ∃ s r, bs = s :: r := by
          cases bs with
          | nil => exact absurd rfl hbs
          | cons s r => exact ⟨s, r, rfl⟩
        show setNested (a :: s₂ :: r₂) v₂ (objInsert a _ es)
           = setNested (a :: s₁ :: r₁) v₁ (objInsert a _ es)
        simp only [setNested]
        rw [show ∀ x, childOf a (objInsert a x es) =
              match x with
              | Json.obj c => c
              | _ => [] from fun x => by unfold childOf; rw [objGet_insert_self]; cases x <;> rfl]
        rw [show ∀ x, childOf a (objInsert a x es) =
              match x with
              | Json.obj c => c
              | _ => [] from fun x => by unfold childOf; rw [objGet_insert_self]; cases x <;> rfl]
        rw [objInsert_insert_self, objInsert_insert_self]
        rw [ih (s₂ :: r₂) v₁ v₂ (childOf a es) htails₁ htails₂]
      · -- different head segments: two independent inserts
        rw [setNested_cons a as v₁ es,
            setNested_cons b bs v₂ (objInsert a (nestNode a as v₁ es) es),
            nestNode_insert_ne (fun h => hab h.symm),
            setNested_cons b bs v₂ es,
            setNested_cons a as v₁ (objInsert b (nestNode b bs v₂ es) es),
            nestNode_insert_ne hab,
            objInsert_comm (fun h => hab h.symm)]


/-!
## Shape of the built tree, and totality of `to_json`
-/

theorem noNull_obj (es : List (Str × Json)) :
    noNull (Json.obj es) ↔ ∀ e ∈ es, noNull e.2 := by
  rw [noNull]

theorem mem_objInsert {e : Str × Json} {k : Str} {v : Json} :
    ∀ {es : List (Str × Json)}, e ∈ objInsert k v es → e = (k, v) ∨ e ∈ es := by
  intro es
  induction es with
  | nil => intro h; simp [objInsert] at h; exact Or.inl h
  | cons e' rest ih =>
    obtain ⟨k', v'⟩ := e'
    intro h
    simp only [objInsert] at h
    split at h
    · rcases List.mem_cons.mp h with h | h
      · exact Or.inl h
      · exact Or.inr h
    · split at h
      · rcases List.mem_cons.mp h with h | h
        · exact Or.inl h
        · exact Or.inr (List.mem_cons_of_mem _ h)
      · rcases List.mem_cons.mp h with h | h
        · exact Or.inr (by rw [h]; exact List.mem_cons_self _ _)
        · rcases ih h with h' | h'
          · exact Or.inl h'
          · exact Or.inr (List.mem_cons_of_mem _ h')

theorem objGet_mem {k : Str} {j : Json} :
    ∀ {es : List (Str × Json)}, objGet k es = some j → ∃ k0, (k0, j) ∈ es := by
  intro es
  induction es with
  | nil => intro h; cases h
  | cons e rest ih =>
    obtain ⟨k', v'⟩ := e
    intro h
    simp only [objGet] at h
    split at h
    · injection h with h'
      exact ⟨k', by rw [← h']; exact List.mem_cons_self _ _⟩
    · obtain ⟨k0, hk0⟩ := ih h
      exact ⟨k0, List.mem_cons_of_mem _ hk0⟩

theorem noNull_childOf {k : Str} {es : List (Str × Json)}
    (h : ∀ e ∈ es, noNull e.2) : ∀ e ∈ childOf k es, noNull e.2 := by
  unfold childOf
  cases hg : objGet k es with
  | none => intro e he; cases he
  | some j =>
    cases j with
    | null => intro e he; cases he
    | str s => intro e he; cases he
    | obj ces =>
      obtain ⟨k0, hk0⟩ := objGet_mem hg
      have := h _ hk0
      rw [noNull_obj] at this
      exact this

theorem noNull_setNested :
    ∀ (p : List Str) (v : Str) (es : List (Str × Json)),
    (∀ e ∈ es, noNull e.2) → ∀ e ∈ setNested p v es, noNull e.2 := by
  intro p
  induction p with
  | nil => intro v es h e he; exact h e he
  | cons k rest ih =>
    intro v es h e he
    cases rest with
    | nil =>
      have he' : e ∈ objInsert k (Json.str v) es := he
      rcases mem_objInsert he' with h' | h'
      · rw [h']
        show noNull (Json.str v)
        rw [noNull]
        trivial
      · exact h e h'
    | cons s r =>
      have he' : e ∈ objInsert k (Json.obj (setNested (s :: r) v (childOf k es))) es := he
      rcases mem_objInsert he' with h' | h'
      · rw [h']
        show noNull (Json.obj (setNested (s :: r) v (childOf k es)))
        rw [noNull_obj]
        exact ih v (childOf k es) (noNull_childOf h)
      · exact h e h'

theorem noNull_buildTree (es : List (Str × Str)) : noNull (Json.obj (buildTree es)) := by
  rw [noNull_obj]
  unfold buildTree
  suffices h : ∀ acc : List (Str × Json), (∀ e ∈ acc, noNull e.2) →
      ∀ e ∈ es.foldl (fun acc e => setNested (splitOnDot e.1) e.2 acc) acc, noNull e.2 by
    exact h [] (by intro e he; cases he)
  induction es with
  | nil => intro acc hacc; exact hacc
  | cons x rest ih =>
    intro acc hacc
    exact ih _ (noNull_setNested _ _ _ hacc)

theorem splitOnDot_ne_nil : ∀ l : Str, splitOnDot l ≠ [] := by
  intro l
  cases l with
  | nil => simp [splitOnDot]
  | cons c rest =>
    simp only [splitOnDot]
    by_cases hc : c = '.'
    · simp [hc]
    · simp only [hc, if_false]
      cases splitOnDot rest <;> simp

theorem set_nested_value_eq (es : List (Str × Json)) (key v : Str) :
    set_nested_value es key v = some (setNested (splitOnDot key) v es) := by
  unfold set_nested_value
  cases h : splitOnDot key with
  | nil => exact absurd h (splitOnDot_ne_nil key)
  | cons k rest => rfl

theorem foldlM_setNested (l : List (Str × Str)) :
    ∀ acc : List (Str × Json),
    List.foldlM (fun es e => set_nested_value es e.1 e.2) acc l
      = some (List.foldl (fun es e => setNested (splitOnDot e.1) e.2 es) acc l) := by
  induction l with
  | nil => intro acc; rfl
  | cons x rest ih =>
    intro acc
    rw [List.foldlM_cons, set_nested_value_eq]
    show List.foldlM _ (setNested (splitOnDot x.1) x.2 acc) rest = _
    rw [ih]
    rfl

theorem to_json_eq (c : SysctlConfig) :
    c.to_json = some (.ok (Json.obj (buildTree c.settings))) := by
  unfold SysctlConfig.to_json buildTree
  rw [foldlM_setNested]


theorem pathsDisjoint_symm : Symmetric pathsDisjoint :=
  fun _ _ h => ⟨h.2, h.1⟩

theorem buildTree_perm_of_disjoint {l₁ l₂ : List (Str × Str)}
    (hp : List.Perm l₁ l₂) (hd : List.Pairwise pathsDisjoint l₁) :
    buildTree l₁ = buildTree l₂ := by
  unfold buildTree
  refine hp.foldl_eq' ?_ []
  intro x hx y hy z
  by_cases hxy : x = y
  · rw [hxy]
  · have h := List.Pairwise.forall pathsDisjoint_symm hd hx hy hxy
    exact setNested_comm (splitOnDot x.1) (splitOnDot y.1) x.2 y.2 z h.1 h.2

/-!
## Bridge between the per-line classification and the stateful parser
-/

theorem lineClass_skip_elim {l : Str} (h : lineClass l = .skip) :
    should_skip_line (trim l) = true := by
  simp only [lineClass] at h
  by_cases hs : should_skip_line (trim l) = true
  · exact hs
  · exfalso
    rw [if_neg hs] at h
    rcases splitn2Eq_cases (trim l) with ⟨_, hx⟩ | ⟨a, b, _, _, hx⟩
    · rw [hx] at h; cases h
    · rw [hx] at h
      have h' : (if trim a = [] then LineAction.fail emptyKeyMsg
                 else LineAction.entry (trim a) (trim b)) = LineAction.skip := h
      by_cases hkey : trim a = []
      · rw [if_pos hkey] at h'; cases h'
      · rw [if_neg hkey] at h'; cases h'

theorem lineClass_entry_elim {l : Str} {k v : Str} (h : lineClass l = .entry k v) :
    should_skip_line (trim l) = false ∧
    ∀ (s : List (Str × Str)) (n : Nat),
      parse_line s (trim l) n = .ok (tableInsert k v s) := by
  simp only [lineClass] at h
  by_cases hs : should_skip_line (trim l) = true
  · rw [if_pos hs] at h; cases h
  · rw [if_neg hs] at h
    refine ⟨by simpa using hs, ?_⟩
    intro s n
    unfold parse_line
    rcases splitn2Eq_cases (trim l) with ⟨_, hx⟩ | ⟨a, b, _, _, hx⟩
    · rw [hx] at h; cases h
    · rw [hx] at h ⊢
      have h' : (if trim a = [] then LineAction.fail emptyKeyMsg
                 else LineAction.entry (trim a) (trim b)) = LineAction.entry k v := h
      by_cases hkey : trim a = []
      · rw [if_pos hkey] at h'; cases h'
      · rw [if_neg hkey] at h'
        injection h' with hk hv
        show (if trim a = [] then Except.error (SysctlError.Parse n emptyKeyMsg)
              else Except.ok (tableInsert (trim a) (trim b) s))
            = Except.ok (tableInsert k v s)
        rw [if_neg hkey, hk, hv]

theorem lineClass_fail_elim {l : Str} {m : String} (h : lineClass l = .fail m) :
    should_skip_line (trim l) = false ∧
    ∀ (s : List (Str × Str)) (n : Nat),
      parse_line s (trim l) n = .error (.Parse n m) := by
  simp only [lineClass] at h
  by_cases hs : should_skip_line (trim l) = true
  · rw [if_pos hs] at h; cases h
  · rw [if_neg hs] at h
    refine ⟨by simpa using hs, ?_⟩
    intro s n
    unfold parse_line
    rcases splitn2Eq_cases (trim l) with ⟨_, hx⟩ | ⟨a, b, _, _, hx⟩
    · rw [hx] at h ⊢
      have h' : LineAction.fail invalidFormatMsg = LineAction.fail m := h
      injection h' with hm
      show Except.error (SysctlError.Parse n invalidFormatMsg)
          = Except.error (SysctlError.Parse n m)
      rw [hm]
    · rw [hx] at h ⊢
      have h' : (if trim a = [] then LineAction.fail emptyKeyMsg
                 else LineAction.entry (trim a) (trim b)) = LineAction.fail m := h
      by_cases hkey : trim a = []
      · rw [if_pos hkey] at h'
        injection h' with hm
        show (if trim a = [] then Except.error (SysctlError.Parse n emptyKeyMsg)
              else Except.ok (tableInsert (trim a) (trim b) s))
            = Except.error (.Parse n m)
        rw [if_pos hkey, hm]
      · rw [if_neg hkey] at h'; cases h'

theorem entriesOf_cons_skip {l : Str} (h : lineClass l = .skip) (rest : List Str) :
    entriesOf (l :: rest) = entriesOf rest := by
  unfold entriesOf
  rw [List.filterMap_cons]
  simp [lineEntry, h]

theorem entriesOf_cons_entry {l k v : Str} (h : lineClass l = .entry k v)
    (rest : List Str) : entriesOf (l :: rest) = (k, v) :: entriesOf rest := by
  unfold entriesOf
  rw [List.filterMap_cons]
  simp [lineEntry, h]

theorem parseFrom_cons_skip {l : Str} (h : should_skip_line (trim l) = true)
    (s : List (Str × Str)) (rest : List Str) (n : Nat) :
    parseFrom s (l :: rest) n = parseFrom s rest (n + 1) := by
  show (if should_skip_line (trim l) = true then parseFrom s rest (n + 1)
        else match parse_line s (trim l) (n + 1) with
             | .ok s' => parseFrom s' rest (n + 1)
             | .error e => (.error e, s)) = parseFrom s rest (n + 1)
  rw [if_pos h]

theorem parseFrom_cons_entry {l k v : Str} (hcl : lineClass l = .entry k v)
    (s : List (Str × Str)) (rest : List Str) (n : Nat) :
    parseFrom s (l :: rest) n = parseFrom (tableInsert k v s) rest (n + 1) := by
  obtain ⟨hskip, hpl⟩ := lineClass_entry_elim hcl
  show (if should_skip_line (trim l) = true then parseFrom s rest (n + 1)
        else match parse_line s (trim l) (n + 1) with
             | .ok s' => parseFrom s' rest (n + 1)
             | .error e => (.error e, s)) = _
  rw [if_neg (by simp [hskip]), hpl s (n + 1)]

theorem parseFrom_cons_fail {l : Str} {m : String} (hcl : lineClass l = .fail m)
    (s : List (Str × Str)) (rest : List Str) (n : Nat) :
    parseFrom s (l :: rest) n = (.error (.Parse (n + 1) m), s) := by
  obtain ⟨hskip, hpl⟩ := lineClass_fail_elim hcl
  show (if should_skip_line (trim l) = true then parseFrom s rest (n + 1)
        else match parse_line s (trim l) (n + 1) with
             | .ok s' => parseFrom s' rest (n + 1)
             | .error e => (.error e, s)) = _
  rw [if_neg (by simp [hskip]), hpl s (n + 1)]

theorem parseFrom_ok :
    ∀ (lines : List Str) (s : List (Str × Str)) (n : Nat),
    (∀ l ∈ lines, lineOk l) →
    parseFrom s lines n = (.ok (), applyEntries s (entriesOf lines)) := by
  intro lines
  induction lines with
  | nil => intro s n _; rfl
  | cons l rest ih =>
    intro s n hok
    have hl := hok l (List.mem_cons_self _ _)
    have hrest : ∀ x ∈ rest, lineOk x := fun x hx => hok x (List.mem_cons_of_mem _ hx)
    cases hcl : lineClass l with
    | skip =>
      rw [parseFrom_cons_skip (lineClass_skip_elim hcl), ih _ (n + 1) hrest,
        entriesOf_cons_skip hcl]
    | entry k v =>
      rw [parseFrom_cons_entry hcl, ih _ (n + 1) hrest, entriesOf_cons_entry hcl]
      rfl
    | fail m => exact absurd hcl (hl m)

theorem parseFrom_fail :
    ∀ (pre : List Str) (bad : Str) (post : List Str) (s : List (Str × Str))
      (n : Nat) (m : String),
    (∀ l ∈ pre, lineOk l) → lineClass bad = .fail m →
    parseFrom s (pre ++ bad :: post) n =
      (.error (.Parse (n + pre.length + 1) m), applyEntries s (entriesOf pre)) := by
  intro pre
  induction pre with
  | nil =>
    intro bad post s n m _ hbad
    rw [List.nil_append, parseFrom_cons_fail hbad]
    simp [applyEntries, entriesOf]
  | cons l pre' ih =>
    intro bad post s n m hok hbad
    have hl := hok l (List.mem_cons_self _ _)
    have hpre' : ∀ x ∈ pre', lineOk x := fun x hx => hok x (List.mem_cons_of_mem _ hx)
    have harith : n + 1 + pre'.length + 1 = n + (l :: pre').length + 1 := by
      simp [List.length_cons]; omega
    cases hcl : lineClass l with
    | skip =>
      rw [List.cons_append, parseFrom_cons_skip (lineClass_skip_elim hcl),
        ih bad post s (n + 1) m hpre' hbad, entriesOf_cons_skip hcl, harith]
    | entry k v =>
      rw [List.cons_append, parseFrom_cons_entry hcl,
        ih bad post _ (n + 1) m hpre' hbad, entriesOf_cons_entry hcl, harith]
      rfl
    | fail m' => exact absurd hcl (hl m')

/-!
## Last-write-wins and entry-count lemmas for the settings table
-/

theorem assocGet_tableInsert (k k' v : Str) :
    ∀ t, assocGet k (tableInsert k' v t) = if k = k' then some v else assocGet k t := by
  intro t
  induction t with
  | nil => simp [tableInsert, assocGet]
  | cons e rest ih =>
    obtain ⟨a, b⟩ := e
    simp only [tableInsert]
    by_cases h : k' = a
    · subst h
      simp only [if_true]
      by_cases hk : k = k' <;> simp [assocGet, hk]
    · simp only [h, if_false]
      by_cases hk : k = a
      · subst hk
        have hne : ¬ k = k' := fun hh => h hh.symm
        simp [assocGet, hne]
      · simp [assocGet, hk, ih]

theorem assocGet_applyEntries (k : Str) :
    ∀ (es : List (Str × Str)) (t : List (Str × Str)),
    assocGet k (applyEntries t es) =
      match findLastVal k es with
      | some w => some w
      | none => assocGet k t := by
  intro es
  induction es with
  | nil => intro t; rfl
  | cons e rest ih =>
    intro t
    obtain ⟨k', v'⟩ := e
    show assocGet k (applyEntries (tableInsert k' v' t) rest) = _
    rw [ih]
    simp only [findLastVal]
    cases findLastVal k rest with
    | some w => rfl
    | none =>
      rw [assocGet_tableInsert]
      by_cases hk : k = k' <;> simp [hk]

theorem tableKeys_insert_toFinset (k v : Str) :
    ∀ t, (tableKeys (tableInsert k v t)).toFinset = insert k (tableKeys t).toFinset := by
  intro t
  induction t with
  | nil => simp [tableInsert, tableKeys]
  | cons e rest ih =>
    obtain ⟨a, b⟩ := e
    simp only [tableInsert]
    by_cases h : k = a
    · subst h
      simp [tableKeys, Finset.insert_idem]
    · simp only [h, if_false]
      simp only [tableKeys, List.map_cons, List.toFinset_cons] at ih ⊢
      rw [ih, Finset.Insert.comm]

theorem mem_tableKeys_insert {x k v : Str} {t : List (Str × Str)} :
    x ∈ tableKeys (tableInsert k v t) ↔ x = k ∨ x ∈ tableKeys t := by
  rw [← List.mem_toFinset, tableKeys_insert_toFinset, Finset.mem_insert,
    List.mem_toFinset]

theorem tableKeys_insert_nodup (k v : Str) :
    ∀ {t}, (tableKeys t).Nodup → (tableKeys (tableInsert k v t)).Nodup := by
  intro t
  induction t with
  | nil => intro _; simp [tableInsert, tableKeys]
  | cons e rest ih =>
    obtain ⟨a, b⟩ := e
    intro h
    simp only [tableKeys, List.map_cons, List.nodup_cons] at h
    obtain ⟨ha, hrest⟩ := h
    simp only [tableInsert]
    by_cases hk : k = a
    · subst hk
      rw [if_pos rfl]
      simp only [tableKeys, List.map_cons, List.nodup_cons]
      exact ⟨ha, hrest⟩
    · simp only [hk, if_false, tableKeys, List.map_cons, List.nodup_cons]
      refine ⟨?_, ih hrest⟩
      intro hmem
      rcases mem_tableKeys_insert.mp hmem with h' | h'
      · exact hk h'.symm
      · exact ha h'

theorem applyEntries_keys_toFinset :
    ∀ (es : List (Str × Str)) (t : List (Str × Str)),
    (tableKeys (applyEntries t es)).toFinset =
      (tableKeys t).toFinset ∪ (es.map Prod.fst).toFinset := by
  intro es
  induction es with
  | nil => intro t; simp [applyEntries]
  | cons e rest ih =>
    intro t
    obtain ⟨k, v⟩ := e
    show (tableKeys (applyEntries (tableInsert k v t) rest)).toFinset = _
    rw [ih, tableKeys_insert_toFinset]
    simp only [List.map_cons, List.toFinset_cons]
    rw [Finset.insert_union, Finset.union_insert]

theorem applyEntries_keys_nodup :
    ∀ (es : List (Str × Str)) {t : List (Str × Str)},
    (tableKeys t).Nodup → (tableKeys (applyEntries t es)).Nodup := by
  intro es
  induction es with
  | nil => intro t h; exact h
  | cons e rest ih =>
    intro t h
    obtain ⟨k, v⟩ := e
    exact ih (tableKeys_insert_nodup k v h)

theorem applyEntries_length (es : List (Str × Str)) :
    (applyEntries [] es).length = (es.map Prod.fst).dedup.length := by
  have h1 : (tableKeys (applyEntries [] es)).Nodup :=
    applyEntries_keys_nodup es (by simp [tableKeys])
  have h2 : (tableKeys (applyEntries [] es)).toFinset = (es.map Prod.fst).toFinset := by
    rw [applyEntries_keys_toFinset]
    simp [tableKeys]
  have h3 := List.toFinset_card_of_nodup h1
  rw [h2, List.card_toFinset] at h3
  have h4 : (tableKeys (applyEntries [] es)).length = (applyEntries [] es).length := by
    simp [tableKeys]
  omega

/-!
## Preservation of the trimmed-keys invariant
-/

theorem tableInvariant_insert {t : List (Str × Str)} {k v : Str}
    (ht : tableInvariant t) (hk : k ≠ []) (hk' : trim k = k) (hv : trim v = v) :
    tableInvariant (tableInsert k v t) := by
  induction t with
  | nil =>
    intro kv hkv
    simp [tableInsert] at hkv
    rw [hkv]
    exact ⟨hk, hk', hv⟩
  | cons e rest ih =>
    obtain ⟨a, b⟩ := e
    have hrest : tableInvariant rest := fun kv hkv => ht kv (List.mem_cons_of_mem _ hkv)
    have hhead := ht (a, b) (List.mem_cons_self _ _)
    intro kv hkv
    simp only [tableInsert] at hkv
    by_cases hka : k = a
    · simp only [hka, if_true] at hkv
      rcases List.mem_cons.mp hkv with h | h
      · rw [h]; exact ⟨hka ▸ hk, hka ▸ hk', hv⟩
      · exact hrest kv h
    · simp only [hka, if_false] at hkv
      rcases List.mem_cons.mp hkv with h | h
      · rw [h]; exact hhead
      · exact ih hrest kv h

theorem parse_line_invariant {s s' : List (Str × Str)} {l : Str} {n : Nat}
    (hs : tableInvariant s) (h : parse_line s l n = .ok s') :
    tableInvariant s' := by
  unfold parse_line at h
  rcases splitn2Eq_cases l with ⟨_, hx⟩ | ⟨a, b, _, _, hx⟩
  · rw [hx] at h; cases h
  · rw [hx] at h
    have h' : (if trim a = [] then
          (Except.error (SysctlError.Parse n emptyKeyMsg) :
            Except SysctlError (List (Str × Str)))
        else Except.ok (tableInsert (trim a) (trim b) s)) = Except.ok s' := h
    by_cases hkey : trim a = []
    · rw [if_pos hkey] at h'; cases h'
    · rw [if_neg hkey] at h'
      injection h' with hs'
      rw [← hs']
      exact tableInvariant_insert hs hkey (trim_idem a) (trim_idem b)

theorem parseFrom_invariant :
    ∀ (lines : List Str) (s : List (Str × Str)) (n : Nat),
    tableInvariant s → tableInvariant (parseFrom s lines n).2 := by
  intro lines
  induction lines with
  | nil => intro s n hs; exact hs
  | cons l rest ih =>
    intro s n hs
    show tableInvariant
      (if should_skip_line (trim l) = true then parseFrom s rest (n + 1)
       else match parse_line s (trim l) (n + 1) with
            | .ok s' => parseFrom s' rest (n + 1)
            | .error e => (.error e, s)).2
    by_cases hskip : should_skip_line (trim l) = true
    · rw [if_pos hskip]; exact ih s (n + 1) hs
    · rw [if_neg hskip]
      cases hpl : parse_line s (trim l) (n + 1) with
      | ok s' => exact ih s' (n + 1) (parse_line_invariant hs hpl)
      | error e => exact hs


/-!
## Error accumulation of the validator
-/

theorem collectErrors_eq (config : List (Str × Str)) :
    ∀ (fields : List (Str × SchemaField)) (acc : List SchemaError),
    collectErrors config fields acc = acc ++ fields.filterMap (fieldError config) := by
  intro fields
  induction fields with
  | nil => intro acc; simp [collectErrors]
  | cons kf rest ih =>
    intro acc
    obtain ⟨key, field⟩ := kf
    have hstep : collectErrors config ((key, field) :: rest) acc
        = collectErrors config rest (acc ++ (fieldError config (key, field)).toList) := by
      simp only [collectErrors, fieldError]
      cases assocGet key config with
      | some value =>
        cases hv : Schema.validate_value key value field.field_type with
        | ok u => simp [hv]
        | error e => simp [hv]
      | none =>
        by_cases hr : field.required = true <;> simp [hr]
    rw [hstep, ih, List.filterMap_cons]
    cases fieldError config (key, field) with
    | none => simp
    | some e => simp

theorem validate_ok_iff (s : Schema) (config : List (Str × Str)) :
    s.validate config = .ok () ↔ s.schema.filterMap (fieldError config) = [] := by
  unfold Schema.validate
  rw [collectErrors_eq, List.nil_append]
  constructor
  · intro h
    by_cases hnil : s.schema.filterMap (fieldError config) = []
    · exact hnil
    · rw [if_neg (fun hc => hnil (List.isEmpty_iff.mp hc))] at h
      cases h
  · intro hnil
    rw [if_pos (List.isEmpty_iff.mpr hnil)]

theorem validate_error_eq (s : Schema) (config : List (Str × Str))
    (es : List SchemaError) (h : s.validate config = .error es) :
    es = s.schema.filterMap (fieldError config) := by
  unfold Schema.validate at h
  rw [collectErrors_eq, List.nil_append] at h
  by_cases hnil : s.schema.filterMap (fieldError config) = []
  · rw [if_pos (List.isEmpty_iff.mpr hnil)] at h; cases h
  · rw [if_neg (fun hc => hnil (List.isEmpty_iff.mp hc))] at h
    injection h with h'
    exact h'.symm

/-!
## Schema loading never produces `UnknownType`
-/

theorem deserializeType_error_is_yaml :
    ∀ (t : TypeTag) (e : SchemaError), deserializeType t = .error e →
    ∃ m, e = .Yaml m := by
  intro t
  induction t with
  | atom a =>
    intro e h
    unfold deserializeType at h
    split_ifs at h
    injection h with h'
    exact ⟨unknownVariantMsg a, h'.symm⟩
  | tagged a inner ih =>
    intro e h
    unfold deserializeType at h
    by_cases ha : a = "optional"
    · rw [if_pos ha] at h
      cases hin : deserializeType inner with
      | ok ty => rw [hin] at h; cases h
      | error e' =>
        rw [hin] at h
        injection h with h'
        exact h' ▸ ih e' hin
    · rw [if_neg ha] at h
      injection h with h'
      exact ⟨unknownVariantMsg a, h'.symm⟩

theorem deserializeField_error_is_yaml {d : SchemaFieldDoc} {e : SchemaError}
    (h : deserializeField d = .error e) : ∃ m, e = .Yaml m := by
  unfold deserializeField at h
  cases ht : deserializeType d.type_tag with
  | ok ty => rw [ht] at h; cases h
  | error e' =>
    rw [ht] at h
    injection h with h'
    exact h' ▸ deserializeType_error_is_yaml _ e' ht

theorem schemaFromDoc_error_is_yaml :
    ∀ (doc : List (Str × SchemaFieldDoc)) (e : SchemaError),
    schemaFromDoc doc = .error e → ∃ m, e = .Yaml m := by
  intro doc
  induction doc with
  | nil => intro e h; cases h
  | cons nd rest ih =>
    intro e h
    obtain ⟨name, d⟩ := nd
    simp only [schemaFromDoc] at h
    cases hf : deserializeField d with
    | error e' =>
      rw [hf] at h
      injection h with h'
      exact h' ▸ deserializeField_error_is_yaml hf
    | ok f =>
      rw [hf] at h
      cases hr : schemaFromDoc rest with
      | error e' =>
        rw [hr] at h
        injection h with h'
        exact h' ▸ ih e' hr
      | ok s => rw [hr] at h; cases h

theorem deserializeType_unknown_atom {tag : String}
    (h : tag ∉ (["string", "bool", "int", "float"] : List String)) :
    deserializeType (.atom tag) = .error (.Yaml (unknownVariantMsg tag)) := by
  unfold deserializeType
  have h1 : ¬ tag = "string" := fun hh => h (by simp [hh])
  have h2 : ¬ tag = "bool" := fun hh => h (by simp [hh])
  have h3 : ¬ tag = "int" := fun hh => h (by simp [hh])
  have h4 : ¬ tag = "float" := fun hh => h (by simp [hh])
  rw [if_neg h1, if_neg h2, if_neg h3, if_neg h4]


/-!
## Claim theorems
-/

/-- C1 counterexample: the claim "the caller sees no partial table: no
entries from lines before or after the failing line are observable" is
false. Parsing `["a=1", "nodelimiter", "b=2"]` fails at line 2, yet the
entry from line 1 is observable through `get` on the mutated config. -/
theorem c1_partial_table_observable :
    (SysctlConfig.new.parse ["a=1".toList, "nodelimiter".toList, "b=2".toList]).1
      = .error (.Parse 2 invalidFormatMsg) ∧
    (SysctlConfig.new.parse
        ["a=1".toList, "nodelimiter".toList, "b=2".toList]).2.get ("a".toList)
      = some ("1".toList) := by
  exact ⟨rfl, rfl⟩

/-- C1 (amended): if every line before the first malformed line is well
formed, `parse` returns the single Parse error carrying that line's exact
1-indexed number and processes no further lines — no entry from any line
after the failing one appears — but the entries inserted from the lines
before the failing line remain observable in the config (the receiver is
mutated in place, so a partial table is exposed on error). -/
theorem c1_first_error_aborts (pre : List Str) (bad : Str) (post : List Str)
    (m : String) (hok : ∀ l ∈ pre, lineOk l) (hbad : lineClass bad = .fail m) :
    (SysctlConfig.new.parse (pre ++ bad :: post)).1
      = .error (.Parse (pre.length + 1) m) ∧
    (SysctlConfig.new.parse (pre ++ bad :: post)).2.settings
      = applyEntries [] (entriesOf pre) := by
  have h := parseFrom_fail pre bad post [] 0 m hok hbad
  constructor
  · show (parseFrom [] (pre ++ bad :: post) 0).1 = _
    rw [h]
    simp
  · show (parseFrom [] (pre ++ bad :: post) 0).2 = _
    rw [h]

/-- Witness for C1 (amended) at a concrete input. -/
theorem c1_first_error_aborts_witness :
    (SysctlConfig.new.parse ["a=1".toList, "nodelimiter".toList, "b=2".toList]).1
      = .error (.Parse 2 invalidFormatMsg) ∧
    (SysctlConfig.new.parse ["a=1".toList, "nodelimiter".toList, "b=2".toList]).2.settings
      = applyEntries [] (entriesOf ["a=1".toList]) :=
  c1_first_error_aborts ["a=1".toList] ("nodelimiter".toList) ["b=2".toList]
    invalidFormatMsg (by decide) (by decide)

/-- C2 counterexample: loading a schema document whose type tag is the
unknown `banana` does not fail with an `UnknownType` error; it fails with
a `Yaml` deserialization error. -/
theorem c2_unknown_tag_not_unknowntype :
    schemaFromDoc [("f".toList, ⟨TypeTag.atom "banana", none, none⟩)]
      = .error (.Yaml (unknownVariantMsg "banana")) ∧
    isUnknownType (SchemaError.Yaml (unknownVariantMsg "banana")) = false := by
  exact ⟨rfl, rfl⟩

/-- C2 (amended): loading a schema document whose type tag is unknown fails
with a `Yaml` deserialization error whose message names the offending tag,
and no schema-load outcome is ever an `UnknownType` error (that declared
variant is dead code). -/
theorem c2_unknown_tag_yields_yaml (tag : String)
    (h : tag ∉ (["string", "bool", "int", "float"] : List String)) :
    (∀ (name : Str) (req : Option Bool) (desc : Option (Option String))
       (rest : List (Str × SchemaFieldDoc)),
      schemaFromDoc ((name, ⟨.atom tag, req, desc⟩) :: rest)
        = .error (.Yaml (unknownVariantMsg tag))) ∧
    (∀ doc e, schemaFromDoc doc = .error e → isUnknownType e = false) := by
  constructor
  · intro name req desc rest
    have hd : deserializeField ⟨TypeTag.atom tag, req, desc⟩
        = .error (.Yaml (unknownVariantMsg tag)) := by
      unfold deserializeField
      rw [deserializeType_unknown_atom h]
    show (match deserializeField ⟨TypeTag.atom tag, req, desc⟩ with
          | .error e => (Except.error e : Except SchemaError Schema)
          | .ok f =>
            match schemaFromDoc rest with
            | .error e => .error e
            | .ok s => .ok ⟨(name, f) :: s.schema⟩)
        = .error (.Yaml (unknownVariantMsg tag))
    rw [hd]
  · intro doc e he
    obtain ⟨m, hm⟩ := schemaFromDoc_error_is_yaml doc e he
    rw [hm]
    rfl

/-- Witness for C2 (amended) at a concrete tag and document. -/
theorem c2_unknown_tag_yields_yaml_witness :
    schemaFromDoc [("g".toList, ⟨TypeTag.atom "weird", none, none⟩)]
      = .error (.Yaml (unknownVariantMsg "weird")) ∧
    isUnknownType (SchemaError.Yaml (unknownVariantMsg "weird")) = false := by
  have h := c2_unknown_tag_yields_yaml "weird" (by decide)
  have h1 := h.1 ("g".toList) none none []
  exact ⟨h1, h.2 _ _ h1⟩

/-- C3: for every table and schema, `validate` returns `Ok` iff the
per-field error collection is empty, every returned error list is exactly
the concatenation over all declared fields of that field's single outcome
(one `MissingKey` when a required field is absent, one `Validation`
mismatch record when a present value fails its type, nothing otherwise),
and the spec's two-required-keys-missing example yields exactly the
two-element error collection. -/
theorem c3_validate_accumulates :
    (∀ (s : Schema) (config : List (Str × Str)),
      (s.validate config = .ok () ↔ s.schema.filterMap (fieldError config) = []) ∧
      ∀ es, s.validate config = .error es →
        es = s.schema.filterMap (fieldError config)) ∧
    twoReqSchema.validate []
      = .error [.MissingKey ("k1".toList), .MissingKey ("k2".toList)] ∧
    ([SchemaError.MissingKey ("k1".toList),
      SchemaError.MissingKey ("k2".toList)] : List SchemaError).length = 2 := by
  refine ⟨?_, rfl, rfl⟩
  intro s config
  exact ⟨validate_ok_iff s config, fun es h => validate_error_eq s config es h⟩

/-- Witness for C3 at the two-required-keys schema and the empty table. -/
theorem c3_validate_accumulates_witness :
    ([SchemaError.MissingKey ("k1".toList), SchemaError.MissingKey ("k2".toList)]
      : List SchemaError)
      = twoReqSchema.schema.filterMap (fieldError []) :=
  (c3_validate_accumulates.1 twoReqSchema []).2 _ rfl


/-- C4: per-line processing. The trimmed line is skipped (no entry, no
error) exactly when it is empty or starts with `#`; a non-skipped line
without `'='` fails with the invalid-format Parse error; otherwise the
line splits at its first `'='` (every later `'='` stays in the value
part), failing with the empty-key Parse error when the trimmed key is
empty and otherwise inserting the independently trimmed key and value —
an empty trimmed value included. -/
theorem c4_line_processing (line : Str) (s : List (Str × Str)) (rest : List Str)
    (n : Nat) :
    (should_skip_line (trim line) = true ↔
      (trim line = [] ∨ (trim line).head? = some '#')) ∧
    (should_skip_line (trim line) = true →
      parseFrom s (line :: rest) n = parseFrom s rest (n + 1)) ∧
    ('=' ∉ trim line → should_skip_line (trim line) = false →
      parse_line s (trim line) n = .error (.Parse n invalidFormatMsg)) ∧
    (∀ a b, trim line = a ++ '=' :: b → '=' ∉ a →
      (trim a = [] → parse_line s (trim line) n = .error (.Parse n emptyKeyMsg)) ∧
      (trim a ≠ [] →
        parse_line s (trim line) n = .ok (tableInsert (trim a) (trim b) s))) := by
  refine ⟨?_, ?_, ?_, ?_⟩
  · unfold should_skip_line
    simp [List.isEmpty_iff]
  · intro h
    exact parseFrom_cons_skip h s rest n
  · intro hm _
    unfold parse_line
    rw [splitn2Eq_of_no_eq hm]
  · intro a b hdec hna
    constructor
    · intro hkey
      unfold parse_line
      rw [hdec, splitn2Eq_of_decomp hna]
      show (if trim a = [] then Except.error (SysctlError.Parse n emptyKeyMsg)
            else Except.ok (tableInsert (trim a) (trim b) s))
          = Except.error (.Parse n emptyKeyMsg)
      rw [if_pos hkey]
    · intro hkey
      unfold parse_line
      rw [hdec, splitn2Eq_of_decomp hna]
      show (if trim a = [] then Except.error (SysctlError.Parse n emptyKeyMsg)
            else Except.ok (tableInsert (trim a) (trim b) s))
          = Except.ok (tableInsert (trim a) (trim b) s)
      rw [if_neg hkey]

/-- Witness for C4 at the concrete line `"  a = b=c "`. -/
theorem c4_line_processing_witness :
    parse_line [] (trim ("  a = b=c ".toList)) 0
      = .ok (tableInsert (trim ("a ".toList)) (trim (" b=c".toList)) []) :=
  ((c4_line_processing ("  a = b=c ".toList) [] [] 0).2.2.2
      ("a ".toList) (" b=c".toList) (by decide) (by decide)).2 (by decide)

/-- C5 counterexample: the claim extends the trimmed-non-empty-key
invariant to tables populated by direct programmatic `set`, but `set`
performs no trimming: after `set " a" "v"` the stored key carries its
leading whitespace, violating the invariant. -/
theorem c5_set_untrimmed :
    ¬ tableInvariant ((SysctlConfig.new.set (" a".toList) ("v".toList)).settings) := by
  intro h
  have := h (" a".toList, "v".toList) (by decide)
  have hne : trim (" a".toList) ≠ " a".toList := by decide
  exact hne this.2.1

/-- C5 (amended): every table reachable through the parser satisfies the
invariant — all keys non-empty and keys and values stored trimmed — and
this holds for any starting config that satisfies it (in particular the
fresh empty one), whether the parse succeeds or fails; direct programmatic
`set`, by contrast, inserts its arguments unchecked and untrimmed. -/
theorem c5_parser_invariant (lines : List Str) (c : SysctlConfig)
    (hc : tableInvariant c.settings) :
    tableInvariant (c.parse lines).2.settings := by
  show tableInvariant (parseFrom c.settings lines 0).2
  exact parseFrom_invariant lines c.settings 0 hc

/-- Witness for C5 (amended) at a concrete parse. -/
theorem c5_parser_invariant_witness :
    tableInvariant (SysctlConfig.new.parse
      ["  a = 1 ".toList, "# c".toList, "b=".toList]).2.settings :=
  c5_parser_invariant ["  a = 1 ".toList, "# c".toList, "b=".toList]
    SysctlConfig.new (by decide)

/-- C6: on well-formed input the parse succeeds, the resulting table has
exactly one entry per distinct key of the input (`len` equals the number
of distinct keys among the produced entries), and `get` returns the value
of the last line that wrote each key — duplicate assignments overwrite
silently. -/
theorem c6_last_write_wins (lines : List Str) (hok : ∀ l ∈ lines, lineOk l) :
    (SysctlConfig.new.parse lines).1 = .ok () ∧
    (SysctlConfig.new.parse lines).2.len
      = ((entriesOf lines).map Prod.fst).dedup.length ∧
    ∀ k, (SysctlConfig.new.parse lines).2.get k = findLastVal k (entriesOf lines) := by
  have h := parseFrom_ok lines [] 0 hok
  refine ⟨?_, ?_, ?_⟩
  · show (parseFrom [] lines 0).1 = _
    rw [h]
  · show (parseFrom [] lines 0).2.length = _
    rw [h]
    exact applyEntries_length (entriesOf lines)
  · intro k
    show assocGet k (parseFrom [] lines 0).2 = _
    rw [h]
    rw [assocGet_applyEntries k (entriesOf lines) []]
    cases findLastVal k (entriesOf lines) <;> rfl

/-- Witness for C6: three lines, two distinct keys, key `a` written twice;
the table has two entries and `get a` is the last-written `"3"`. -/
theorem c6_last_write_wins_witness :
    (SysctlConfig.new.parse ["a=1".toList, "b=2".toList, "a=3".toList]).1 = .ok () ∧
    (SysctlConfig.new.parse ["a=1".toList, "b=2".toList, "a=3".toList]).2.len
      = ((entriesOf ["a=1".toList, "b=2".toList, "a=3".toList]).map Prod.fst).dedup.length ∧
    (SysctlConfig.new.parse ["a=1".toList, "b=2".toList, "a=3".toList]).2.get ("a".toList)
      = findLastVal ("a".toList)
          (entriesOf ["a=1".toList, "b=2".toList, "a=3".toList]) := by
  have h := c6_last_write_wins ["a=1".toList, "b=2".toList, "a=3".toList] (by decide)
  exact ⟨h.1, h.2.1, h.2.2 ("a".toList)⟩


/-- C7: building the tree from the table `{a.b: "1", a.c: "2"}` yields
exactly the object `{a: {b: "1", c: "2"}}`; for every table whose dotted
paths are pairwise non-colliding (no path an initial run of another),
applying the entries in any two orders yields structurally identical
trees, so rebuilding from the same table is deterministic despite the
unspecified map iteration order; and for every config the root of
`to_json` is an object whose every node is an object or a string leaf. -/
theorem c7_tree_deterministic :
    buildTree [("a.b".toList, "1".toList), ("a.c".toList, "2".toList)]
      = [("a".toList, Json.obj [("b".toList, Json.str ("1".toList)),
                                ("c".toList, Json.str ("2".toList))])] ∧
    (∀ l₁ l₂ : List (Str × Str), List.Perm l₁ l₂ →
      List.Pairwise pathsDisjoint l₁ → buildTree l₁ = buildTree l₂) ∧
    (∀ c : SysctlConfig, c.to_json = some (.ok (Json.obj (buildTree c.settings))) ∧
      noNull (Json.obj (buildTree c.settings))) := by
  refine ⟨rfl, ?_, ?_⟩
  · intro l₁ l₂ hp hd
    exact buildTree_perm_of_disjoint hp hd
  · intro c
    exact ⟨to_json_eq c, noNull_buildTree c.settings⟩

/-- Witness for C7: the example table processed in the two possible orders
builds the same tree. -/
theorem c7_tree_deterministic_witness :
    buildTree [("a.c".toList, "2".toList), ("a.b".toList, "1".toList)]
      = buildTree [("a.b".toList, "1".toList), ("a.c".toList, "2".toList)] :=
  c7_tree_deterministic.2.1
    [("a.c".toList, "2".toList), ("a.b".toList, "1".toList)]
    [("a.b".toList, "1".toList), ("a.c".toList, "2".toList)]
    (by decide) (by decide)

/-- C8: validating a value against the Bool type succeeds exactly when its
character-wise lower-casing is one of the eight accepted spellings; with
the schema `{net.ipv4.forward: {type: bool, required: true}}` the value
`"yes"` validates, and `"maybe"` produces exactly one mismatch record
(`Validation`, the spec's TypeMismatch) for that key. -/
theorem c8_bool_validation :
    (∀ key value : Str,
      Schema.validate_value key value .bool = .ok () ↔
        (value.map Char.toLower = "true".toList ∨
         value.map Char.toLower = "false".toList ∨
         value.map Char.toLower = "1".toList ∨
         value.map Char.toLower = "0".toList ∨
         value.map Char.toLower = "on".toList ∨
         value.map Char.toLower = "off".toList ∨
         value.map Char.toLower = "yes".toList ∨
         value.map Char.toLower = "no".toList)) ∧
    fwdBoolSchema.validate [(fwdKey, "yes".toList)] = .ok () ∧
    fwdBoolSchema.validate [(fwdKey, "maybe".toList)]
      = .error [.Validation fwdKey ("expected boolean value, got 'maybe'")] := by
  refine ⟨?_, rfl, rfl⟩
  intro key value
  have hiff : value.map Char.toLower ∈ boolLits ↔
      (value.map Char.toLower = "true".toList ∨
       value.map Char.toLower = "false".toList ∨
       value.map Char.toLower = "1".toList ∨
       value.map Char.toLower = "0".toList ∨
       value.map Char.toLower = "on".toList ∨
       value.map Char.toLower = "off".toList ∨
       value.map Char.toLower = "yes".toList ∨
       value.map Char.toLower = "no".toList) := by
    simp [boolLits]
  rw [← hiff]
  show (if value.map Char.toLower ∈ boolLits then (Except.ok () : Except SchemaError Unit)
        else .error (.Validation key
          ("expected boolean value, got '" ++ String.mk value ++ "'")))
      = .ok () ↔ value.map Char.toLower ∈ boolLits
  constructor
  · intro h
    by_cases hm : value.map Char.toLower ∈ boolLits
    · exact hm
    · rw [if_neg hm] at h
      cases h
  · intro hm
    rw [if_pos hm]

/-- Witness for C8: `"TRUE"` lower-cases to an accepted spelling. -/
theorem c8_bool_validation_witness :
    Schema.validate_value ("k".toList) ("TRUE".toList) .bool = .ok () :=
  (c8_bool_validation.1 ("k".toList) ("TRUE".toList)).mpr (by decide)

/-- C9: tree construction is total. `set_nested_value` never reaches its
panic branch — splitting any key on `'.'` yields at least one segment, so
it always returns a result — and `to_json` returns `Ok` of an object for
every config (its error branch is unreachable), including for empty keys
and keys with leading, trailing or consecutive dots. -/
theorem c9_to_json_total :
    (∀ key : Str, splitOnDot key ≠ []) ∧
    (∀ (es : List (Str × Json)) (key value : Str),
      set_nested_value es key value
        = some (setNested (splitOnDot key) value es)) ∧
    (∀ c : SysctlConfig, ∃ es, c.to_json = some (.ok (Json.obj es))) := by
  refine ⟨splitOnDot_ne_nil, set_nested_value_eq, ?_⟩
  intro c
  exact ⟨buildTree c.settings, to_json_eq c⟩

/-- Witness for C9 at an empty key, a dotted edge-case key, and a config
holding both. -/
theorem c9_to_json_total_witness :
    splitOnDot ([] : Str) ≠ [] ∧
    set_nested_value [] (".a..b.".toList) ("v".toList)
      = some (setNested (splitOnDot (".a..b.".toList)) ("v".toList) []) ∧
    ∃ es, (SysctlConfig.new.set ([] : Str) ("w".toList)).to_json
      = some (.ok (Json.obj es)) :=
  ⟨c9_to_json_total.1 [], c9_to_json_total.2.1 [] (".a..b.".toList) ("v".toList),
   c9_to_json_total.2.2 (SysctlConfig.new.set ([] : Str) ("w".toList))⟩

/-- C10: the Int validator accepts an optional leading `'+'` in addition
to `'-'`: `"+42"` parses as the 64-bit signed integer 42 and validates,
and Int validity is exactly successful 64-bit signed integer parsing. -/
theorem c10_int_plus_sign :
    Schema.validate_value ("k".toList) ("+42".toList) .int = .ok () ∧
    parseI64 ("+42".toList) = some 42 ∧
    (∀ key value : Str,
      Schema.validate_value key value .int = .ok () ↔
        (parseI64 value).isSome = true) := by
  refine ⟨rfl, rfl, ?_⟩
  intro key value
  show (if (parseI64 value).isSome then (Except.ok () : Except SchemaError Unit)
        else .error (.Validation key
          ("expected integer value, got '" ++ String.mk value ++ "'")))
      = .ok () ↔ (parseI64 value).isSome = true
  constructor
  · intro h
    by_cases hs : (parseI64 value).isSome = true
    · exact hs
    · rw [if_neg hs] at h
      cases h
  · intro hs
    rw [if_pos hs]

/-- Witness for C10: `"-42"` also validates through the parsing criterion. -/
theorem c10_int_plus_sign_witness :
    Schema.validate_value ("k".toList) ("-42".toList) .int = .ok () :=
  (c10_int_plus_sign.2.2 ("k".toList) ("-42".toList)).mpr (by decide)

